import Mathlib

/-!
Verification development for the selection-ordering, search and
windowed-rendering engine of the multi-select widget.

Strings are modelled as `List Char`; JavaScript numbers that only ever hold
integers are modelled as `Nat`/`Int`; `Map` objects are modelled as
insertion-ordered association lists; fallible lookups return `Option`.
Each definition is a direct translation of the corresponding function in
the TypeScript source (file and function named in its doc comment).
-/

/-! ## FuzzyMatcher (src/src/utils/fuzzy.ts) -/

/-- Separator test used by `isWordBoundary` in src/src/utils/fuzzy.ts:
the previous character is a space, hyphen, underscore or slash. -/
def isBoundaryChar (c : Char) : Bool :=
  c = ' ' || c = '-' || c = '_' || c = '/'

/-- Embeds `isWordBoundary(s, i)` from src/src/utils/fuzzy.ts.
Position 0 is a boundary; otherwise the character at `i - 1` decides.
Out-of-range reads yield `undefined` in JS and compare unequal, hence
`false` here. -/
def isWordBoundary (s : List Char) (i : Nat) : Bool :=
  if i = 0 then true
  else
    match s[i - 1]? with
    | some c => isBoundaryChar c
    | none => false

/-- Embeds the inner `while` loop of `fuzzyScore`: scan a haystack suffix
left to right for the character `c`.  Returns the number of characters
skipped before the first occurrence (which is also its index in the
suffix), or `none` when `c` does not occur. -/
def scanMatch (c : Char) : List Char → Option Nat
  | [] => none
  | x :: xs => if x = c then some 0 else (scanMatch c xs).map (· + 1)

/-- The mutable locals of `fuzzyScore`'s main loop: `hIdx`, `penalty`,
`consecutive` and `firstMatchIndex` (the JS sentinel `-1` becomes
`none`). -/
structure FuzzyAcc where
  hIdx : Nat
  penalty : Int
  consecutive : Nat
  firstMatch : Option Nat
deriving Repr, DecidableEq

/-- Embeds the `for` loop of `fuzzyScore` over the remaining needle
characters.  `prev` is the previously processed needle character
(`n[i-1]`, `none` when `i = 0`).  One step scans for the next needle
character from `hIdx`, adds one penalty per skipped haystack character,
extends the consecutive run when `i > 0 && hIdx > 0 && h[hIdx-1] === n[i-1]`
(the code's test), credits word boundaries, and records the first matched
position. -/
def fuzzyLoop (h : List Char) : List Char → Option Char → FuzzyAcc → Option FuzzyAcc
  | [], _, acc => some acc
  | c :: cs, prev, acc =>
    match scanMatch c (h.drop acc.hIdx) with
    | none => none
    | some rel =>
      let j := acc.hIdx + rel
      let consec : Nat :=
        match prev with
        | some p => if 0 < j ∧ h[j - 1]? = some p then acc.consecutive + 1 else 1
        | none => 1
      let pen : Int := acc.penalty + rel + (if isWordBoundary h j then -1 else 0)
      let fm : Option Nat :=
        match acc.firstMatch with
        | some k => some k
        | none => some j
      fuzzyLoop h cs (some c) ⟨j + 1, pen, consec, fm⟩

/-- Embeds `fuzzyScore(haystack, needle)` from src/src/utils/fuzzy.ts.
Empty needle scores 0; both strings are lowercased; the main loop either
fails (`null`, here `none`) or yields the accumulated penalty, to which the
prefix bonus (−5), the word-boundary bonus at the first match (−3) and the
final consecutive-run bonus (−run length) are applied before flooring at
0. -/
def fuzzyScore (haystack needle : List Char) : Option Int :=
  if needle = [] then some 0
  else
    let h := haystack.map Char.toLower
    let n := needle.map Char.toLower
    match fuzzyLoop h n none ⟨0, 0, 0, none⟩ with
    | none => none
    | some acc =>
      let prefixBonus : Int := if n.isPrefixOf h then -5 else 0
      let wordBonus : Int :=
        match acc.firstMatch with
        | some j => if isWordBoundary h j then -3 else 0
        | none => 0
      some (max 0 (acc.penalty + prefixBonus + wordBonus - (acc.consecutive : Int)))

/-- Variant of the main loop written from the claim's words: the
consecutive run extends only when needle characters `i-1` and `i` were
matched at adjacent haystack positions.  `lastMatch` records the haystack
position at which the previous needle character was matched.  All other
bookkeeping is identical to `fuzzyLoop`. -/
def fuzzyLoopAdj (h : List Char) : List Char → Option Nat → FuzzyAcc → Option FuzzyAcc
  | [], _, acc => some acc
  | c :: cs, lastMatch, acc =>
    match scanMatch c (h.drop acc.hIdx) with
    | none => none
    | some rel =>
      let j := acc.hIdx + rel
      let consec : Nat :=
        match lastMatch with
        | some k => if j = k + 1 then acc.consecutive + 1 else 1
        | none => 1
      let pen : Int := acc.penalty + rel + (if isWordBoundary h j then -1 else 0)
      let fm : Option Nat :=
        match acc.firstMatch with
        | some k => some k
        | none => some j
      fuzzyLoopAdj h cs (some j) ⟨j + 1, pen, consec, fm⟩

/-- Scorer written from the claim's reading of the run rule (adjacent
matched positions), with the same final bonuses and floor as
`fuzzyScore`.  Used to compare the claimed semantics against the code. -/
def fuzzyScoreAdj (haystack needle : List Char) : Option Int :=
  if needle = [] then some 0
  else
    let h := haystack.map Char.toLower
    let n := needle.map Char.toLower
    match fuzzyLoopAdj h n none ⟨0, 0, 0, none⟩ with
    | none => none
    | some acc =>
      let prefixBonus : Int := if n.isPrefixOf h then -5 else 0
      let wordBonus : Int :=
        match acc.firstMatch with
        | some j => if isWordBoundary h j then -3 else 0
        | none => 0
      some (max 0 (acc.penalty + prefixBonus + wordBonus - (acc.consecutive : Int)))

/-! ## Data model (src/src/types) -/

/-- An item: stable unique `id`, display/search `label`, optional
`group`.  The label is the `List Char` model of the TS string. -/
structure Item where
  id : String
  label : List Char
  group : Option String
deriving Repr, DecidableEq

/-! ## ItemOrderer (src/src/utils/ordering.ts) -/

/-- Index at which `id` last occurs in `l`.  This is the lookup of the
`selectedOrder` map built by `selectedIds.forEach((id, i) => map.set(id, i))`
in `separateItems`: a later `set` for a duplicate id overwrites an earlier
one, so the map holds the last occurrence index. -/
def lastIndexOf : List String → String → Option Nat
  | [], _ => none
  | x :: xs, id =>
    match lastIndexOf xs id with
    | some j => some (j + 1)
    | none => if x = id then some 0 else none

/-- Comparator of `selected.sort((a, b) => orderA - orderB)` in
`separateItems`, as a boolean "a may precede b" relation on ranks, with
`none` playing the role of `Infinity`, which sorts last (every selected
item's id is in `selectedIds`, so `none` never actually arises for the
sorted elements; two `Infinity` ranks compare as `NaN` in JS, which the
sort treats as "keep relative order", hence `true`). -/
def rankLE (r₁ r₂ : Option Nat) : Bool :=
  match r₁, r₂ with
  | some a, some b => a ≤ b
  | some _, none => true
  | none, some _ => false
  | none, none => true

/-- Embeds `separateItems(items, selectedIds)` from
src/src/utils/ordering.ts: partition the items by membership of their id
in `selectedIds` (both partitions keep input order), then stably sort the
selected partition by rank in the `selectedOrder` map.  `Array.prototype.sort`
is stable, hence `List.mergeSort`. -/
def separateItems (items : List Item) (selectedIds : List String) :
    List Item × List Item :=
  let selected := items.filter (fun it => selectedIds.contains it.id)
  let unselected := items.filter (fun it => !selectedIds.contains it.id)
  let sortedSelected := selected.mergeSort
    (fun a b => rankLE (lastIndexOf selectedIds a.id) (lastIndexOf selectedIds b.id))
  (sortedSelected, unselected)

/-- A scored candidate produced by `fuzzyFilter`. -/
structure FuzzyCandidate where
  item : Item
  score : Int
deriving Repr, DecidableEq

/-- `fuzzyFilter(items, getText, query)` from src/src/utils/fuzzy.ts,
generalised over the scorer it invokes (the source fixes it to
`fuzzyScore`): score every item, drop the non-matches, and stably sort
ascending by score (`results.sort((a, b) => a.score - b.score)`).  The
optional `limit` parameter is never passed by this repository's callers
and is omitted. -/
def fuzzyFilterWith (score : List Char → List Char → Option Int)
    (items : List Item) (getText : Item → List Char) (query : List Char) :
    List FuzzyCandidate :=
  let results := items.filterMap
    (fun it => (score (getText it) query).map (fun s => ⟨it, s⟩))
  results.mergeSort (fun a b => a.score ≤ b.score)

/-- `fuzzyFilter` as the source defines it, with the scorer fixed to
`fuzzyScore`. -/
def fuzzyFilter (items : List Item) (getText : Item → List Char)
    (query : List Char) : List FuzzyCandidate :=
  fuzzyFilterWith fuzzyScore items getText query

/-- `orderItemsSync(items, selectedIds, query)` from
src/src/utils/ordering.ts, generalised over the scorer used by the fuzzy
pass: separate the items, return `selected ++ unselected` when the query
is empty (`!query`), otherwise run the fuzzy filter over the unselected
partition and return `selected ++ scored.map(s => s.item)`. -/
def orderItemsSyncWith (score : List Char → List Char → Option Int)
    (items : List Item) (selectedIds : List String) (query : List Char) :
    List Item :=
  let parts := separateItems items selectedIds
  if query = [] then parts.1 ++ parts.2
  else parts.1 ++ (fuzzyFilterWith score parts.2 (fun i => i.label) query).map (fun s => s.item)

/-- `orderItemsSync` as the source defines it (scorer = `fuzzyScore`). -/
def orderItemsSync (items : List Item) (selectedIds : List String)
    (query : List Char) : List Item :=
  orderItemsSyncWith fuzzyScore items selectedIds query

/-- `orderItemsAsync(items, selectedIds)` from src/src/utils/ordering.ts:
separate and concatenate, no client-side filtering. -/
def orderItemsAsync (items : List Item) (selectedIds : List String) : List Item :=
  let parts := separateItems items selectedIds
  parts.1 ++ parts.2

/-! ## WindowCalculator (VirtualList) -/

/-- Ceiling division on naturals: `Math.ceil(a / b)` for non-negative
integer `a` and positive integer `b`. -/
def ceilDiv (a b : Nat) : Nat := (a + b - 1) / b

/-- `startIndex = Math.max(0, Math.floor(scrollTop / rowHeight) - overscan)`
from the VirtualList component. -/
def startIndex (scrollTop rowHeight overscan : Nat) : Int :=
  max 0 ((scrollTop / rowHeight : Nat) - (overscan : Int))

/-- `endIndex = Math.min(total - 1, Math.ceil((scrollTop + height) / rowHeight) + overscan)`
from the VirtualList component (`total - 1` is `-1` when the list is
empty, hence `Int`). -/
def endIndex (scrollTop height rowHeight overscan total : Nat) : Int :=
  min ((total : Int) - 1) ((ceilDiv (scrollTop + height) rowHeight : Int) + overscan)

/-- The indices materialised by `items.slice(startIndex, endIndex + 1)`:
the contiguous range `startIndex .. endIndex` (empty when
`endIndex < startIndex`). -/
def windowIndices (scrollTop height rowHeight overscan total : Nat) : List Int :=
  let s := startIndex scrollTop rowHeight overscan
  let e := endIndex scrollTop height rowHeight overscan total
  (List.range (e + 1 - s).toNat).map (fun k : Nat => s + (k : Int))

/-- The default overscan of the VirtualList component. -/
def defaultOverscan : Nat := 6

/-! ## SelectionLedger (useSelection, src/unnamed hook) and caches -/

/-- Lookup in the insertion-ordered association-list model of a JS `Map`. -/
def mapGet (m : List (String × Item)) (k : String) : Option Item :=
  (m.find? (fun e => e.1 = k)).map (fun e => e.2)

/-- `Map.prototype.set`: replace the value in place when the key exists,
otherwise append the new entry (JS maps preserve insertion order). -/
def mapSet (m : List (String × Item)) (k : String) (v : Item) :
    List (String × Item) :=
  if (m.find? (fun e => e.1 = k)).isSome then
    m.map (fun e => if e.1 = k then (k, v) else e)
  else m ++ [(k, v)]

/-- `Map.prototype.delete`: drop the entry with the given key. -/
def mapDelete (m : List (String × Item)) (k : String) : List (String × Item) :=
  m.filter (fun e => !(e.1 = k))

/-- The state touched by `commitSelection`: the MRU-front ordered selected
ids, the search text, and (server mode) the selected-item cache. -/
structure SelectionState where
  selectedIds : List String
  query : List Char
  cache : List (String × Item)
deriving Repr, DecidableEq

/-- Embeds `commitSelection(id)` of `useSelection`: toggle membership
(`isRemoving = selectedIds.includes(id)`); on remove filter the id out, on
add put it at the MRU front; in async mode delete the cache entry on
remove or upsert the item found in `asyncItems` on add (no cache change
when the item is not among the fetched items); finally clear the query
(`setQuery('')`). -/
def commitSelection (isAsync : Bool) (asyncItems : List Item)
    (st : SelectionState) (id : String) : SelectionState :=
  let isRemoving := st.selectedIds.contains id
  let next :=
    if isRemoving then st.selectedIds.filter (fun x => !(x = id))
    else id :: st.selectedIds.filter (fun x => !(x = id))
  let cache :=
    if isAsync then
      if isRemoving then mapDelete st.cache id
      else
        match asyncItems.find? (fun i => i.id = id) with
        | some item => mapSet st.cache id item
        | none => st.cache
    else st.cache
  { selectedIds := next, query := [], cache := cache }

/-! ## NavigationCursor key handlers (src/src/hooks/useKeyboardNavigation.ts) -/

/-- Embeds the `Backspace` branch of `onKeyDown`: with empty query and a
non-empty selection, take `last = selectedIds[selectedIds.length - 1]`;
when `last` is truthy (a JS empty-string id is falsy and is skipped),
emit `onChange(selectedIds.slice(0, -1))` and move `last` to the front of
the separate `mruOrder` list.  Returns the new `(selectedIds, mruOrder)`
pair. -/
def backspaceStep (query : List Char) (selectedIds mruOrder : List String) :
    List String × List String :=
  if query = [] ∧ selectedIds.length ≠ 0 then
    match selectedIds.getLast? with
    | some last =>
      if last ≠ "" then
        (selectedIds.dropLast, last :: mruOrder.filter (fun x => !(x = last)))
      else (selectedIds, mruOrder)
    | none => (selectedIds, mruOrder)
  else (selectedIds, mruOrder)

/-- Whitespace recognised by the `List Char` model of JS
`String.prototype.trim` (the ASCII range of the WhiteSpace/LineTerminator
productions). -/
def isJsWhitespace (c : Char) : Bool :=
  c = ' ' || c = '\t' || c = '\n' || c = '\r' || c = '\x0b' || c = '\x0c'

/-- Model of `query.trim()`: strip leading and trailing whitespace. -/
def jsTrim (s : List Char) : List Char :=
  ((s.dropWhile isJsWhitespace).reverse.dropWhile isJsWhitespace).reverse

/-- Embeds the `' '` (space) branch of `onKeyDown` while the view is open:
when `!query.trim()` holds, the item at `activeIndex` (if any) is
committed; otherwise nothing happens.  Returns the committed id, `none`
when no commit occurs. -/
def spaceKeyCommit (query : List Char) (orderedItems : List Item)
    (activeIndex : Nat) : Option String :=
  if jsTrim query = [] then (orderedItems[activeIndex]?).map (fun it => it.id)
  else none

/-- Embeds `getSelectedItem(id, isSync, items, selectedItems, asyncItems)`
from src/src/components/MultiSelect/helpers.ts: in sync mode (when the
`items` collection was supplied) search it; otherwise try the
selected-item cache first and fall back to searching the fetched items
(`selectedItems.get(id) || asyncItems.find(...)`). -/
def getSelectedItem (id : String) (isSync : Bool) (items : Option (List Item))
    (selectedItems : List (String × Item)) (asyncItems : List Item) :
    Option Item :=
  if isSync ∧ items.isSome then
    (items.getD []).find? (fun i => i.id = id)
  else
    (mapGet selectedItems id).orElse (fun _ => asyncItems.find? (fun i => i.id = id))

/-! ## AsyncLoader (useAsyncItems, src/unnamed hook) -/

/-- One fetch request with its `AbortController`: whether it has been
aborted, and the `reset` argument of the `loadMore` call that issued it. -/
structure Req where
  aborted : Bool
  reset : Bool
deriving Repr, DecidableEq

/-- The renderer-visible loader state named by the stale-completion
claim: the item buffer, the page counter, the `hasMore` flag and the
surfaced error. -/
structure LoaderObs where
  asyncItems : List Item
  page : Nat
  hasMore : Bool
  error : Option String
deriving Repr, DecidableEq

/-- State of `useAsyncItems`: the React state (`asyncItems`, `loading`,
`hasMore`, `error`, cache), the refs (`pageRef`, `loadingRef`,
`abortControllerRef` as the index of the active request), the log of all
requests ever issued (a request's index is stable and never reused), and
the configuration (`selectedIds`, `pageSize`). -/
structure LoaderMachine where
  asyncItems : List Item
  page : Nat
  hasMore : Bool
  error : Option String
  loading : Bool
  loadingRef : Bool
  cache : List (String × Item)
  reqs : List Req
  active : Option Nat
  selectedIds : List String
  pageSize : Nat
deriving Repr, DecidableEq

/-- The observable projection of the loader state. -/
def obs (m : LoaderMachine) : LoaderObs :=
  ⟨m.asyncItems, m.page, m.hasMore, m.error⟩

/-- Mark the request at index `i` aborted (`controller.abort()`). -/
def markAborted : List Req → Nat → List Req
  | [], _ => []
  | r :: rs, 0 => { r with aborted := true } :: rs
  | r :: rs, n + 1 => r :: markAborted rs n

/-- The cache update of a successful page load: upsert every fetched item
whose id is currently selected. -/
def updateCache (cache : List (String × Item)) (selected : List String)
    (fetched : List Item) : List (String × Item) :=
  fetched.foldl
    (fun c it => if selected.contains it.id then mapSet c it.id it else c) cache

/-- Embeds a call of `loadMore(reset)` up to its `await`: bail out when
`loadingRef.current` is set; abort any in-flight request and install a
fresh controller (a new entry in the request log, now active); on
`reset`, zero the page counter, clear the buffer, set `hasMore` and clear
the error; finally `setLoading(true)` and `setError(null)`. -/
def stepStartLoad (m : LoaderMachine) (reset : Bool) : LoaderMachine :=
  if m.loadingRef then m
  else
    let m₁ :=
      match m.active with
      | some i => { m with reqs := markAborted m.reqs i }
      | none => m
    let rid := m₁.reqs.length
    let m₂ := { m₁ with reqs := m₁.reqs ++ [(⟨false, reset⟩ : Req)], active := some rid }
    let m₃ :=
      if reset then
        { m₂ with page := 0, asyncItems := [], hasMore := true, error := none }
      else m₂
    { m₃ with loading := true, error := none }

/-- Embeds the debounce effect's cancellation on a query change: abort
the in-flight request and null the controller ref. -/
def stepQueryChangeAbort (m : LoaderMachine) : LoaderMachine :=
  match m.active with
  | some i => { m with reqs := markAborted m.reqs i, active := none }
  | none => m

/-- Embeds the `useEffect` that copies the `loading` state into
`loadingRef` after a commit. -/
def stepSyncLoadingRef (m : LoaderMachine) : LoaderMachine :=
  { m with loadingRef := m.loading }

/-- Embeds the resumption of `loadMore` after its fetch settles for the
request at index `rid`.  Both the success path and the catch path first
test `abortController.signal.aborted` and return without touching any
state when it is set (the `finally` block is likewise guarded).  A live
success appends (or, for a reset request, replaces) the fetched page,
recomputes `hasMore = fetched.length >= pageSize`, upserts selected items
into the cache, bumps the page counter, clears `loading` and nulls the
controller ref; a live failure surfaces the error. -/
def stepComplete (m : LoaderMachine) (rid : Nat)
    (res : Except String (List Item)) : LoaderMachine :=
  match m.reqs[rid]? with
  | none => m
  | some req =>
    if req.aborted then m
    else
      match res with
      | .ok fetched =>
        { m with
          asyncItems := if req.reset then fetched else m.asyncItems ++ fetched
          hasMore := decide (m.pageSize ≤ fetched.length)
          cache := updateCache m.cache m.selectedIds fetched
          page := m.page + 1
          loading := false
          active := none }
      | .error e => { m with error := some e, loading := false, active := none }

/-- Loader events: a `loadMore(reset)` call reaching its fetch, the
query-change abort of the debounce effect, the `loadingRef` sync effect,
and the settlement of the fetch of request `rid`. -/
inductive LoaderEvent where
  | startLoad (reset : Bool)
  | queryChangeAbort
  | syncLoadingRef
  | complete (rid : Nat) (res : Except String (List Item))
deriving Repr

/-- Event dispatch. -/
def stepEvent (m : LoaderMachine) : LoaderEvent → LoaderMachine
  | .startLoad reset => stepStartLoad m reset
  | .queryChangeAbort => stepQueryChangeAbort m
  | .syncLoadingRef => stepSyncLoadingRef m
  | .complete rid res => stepComplete m rid res

/-- Run a sequence of loader events. -/
def runEvents (m : LoaderMachine) : List LoaderEvent → LoaderMachine
  | [] => m
  | e :: es => runEvents (stepEvent m e) es

/-! ## Helper lemmas: association-list maps -/

theorem mapGet_cons_self (e : String × Item) (es : List (String × Item))
    (k : String) (h : e.1 = k) : mapGet (e :: es) k = some e.2 := by
  rw [mapGet, List.find?_cons_of_pos _ (by simpa using h)]
  rfl

theorem mapGet_cons_ne (e : String × Item) (es : List (String × Item))
    (k : String) (h : ¬e.1 = k) : mapGet (e :: es) k = mapGet es k := by
  rw [mapGet, List.find?_cons_of_neg _ (by simpa using h)]
  rfl

theorem mapGet_map_set_eq (m : List (String × Item)) (k : String) (v : Item) :
    mapGet (m.map (fun e => if e.1 = k then (k, v) else e)) k
      = if (m.find? (fun e => e.1 = k)).isSome then some v else none := by
  induction m with
  | nil => simp [mapGet]
  | cons e es ih =>
    by_cases he : e.1 = k
    · rw [List.map_cons, if_pos he, mapGet_cons_self _ _ _ rfl,
        List.find?_cons_of_pos _ (by simpa using he)]
      rfl
    · rw [List.map_cons, if_neg he, mapGet_cons_ne _ _ _ he,
        List.find?_cons_of_neg _ (by simpa using he)]
      exact ih

theorem mapGet_map_set_ne (m : List (String × Item)) (k : String) (v : Item)
    (k' : String) (h : k' ≠ k) :
    mapGet (m.map (fun e => if e.1 = k then (k, v) else e)) k' = mapGet m k' := by
  induction m with
  | nil => rfl
  | cons e es ih =>
    by_cases he : e.1 = k
    · rw [List.map_cons, if_pos he, mapGet_cons_ne _ _ _ (fun hk => h hk.symm),
        mapGet_cons_ne _ _ _ (by rw [he]; exact fun hk => h hk.symm)]
      exact ih
    · rw [List.map_cons, if_neg he]
      by_cases he' : e.1 = k'
      · rw [mapGet_cons_self _ _ _ he', mapGet_cons_self _ _ _ he']
      · rw [mapGet_cons_ne _ _ _ he', mapGet_cons_ne _ _ _ he']
        exact ih

theorem mapGet_mapSet_self (m : List (String × Item)) (k : String) (v : Item) :
    mapGet (mapSet m k v) k = some v := by
  rw [mapSet]
  by_cases hf : (m.find? (fun e => e.1 = k)).isSome
  · rw [if_pos hf, mapGet_map_set_eq, if_pos hf]
  · rw [if_neg hf, mapGet, List.find?_append]
    have hnone : m.find? (fun e => decide (e.1 = k)) = none :=
      Option.not_isSome_iff_eq_none.mp hf
    rw [hnone, List.find?_cons_of_pos _ (by simp)]
    rfl

theorem mapGet_mapSet_ne (m : List (String × Item)) (k : String) (v : Item)
    (k' : String) (h : k' ≠ k) :
    mapGet (mapSet m k v) k' = mapGet m k' := by
  rw [mapSet]
  by_cases hf : (m.find? (fun e => e.1 = k)).isSome
  · rw [if_pos hf, mapGet_map_set_ne m k v k' h]
  · rw [if_neg hf, mapGet, List.find?_append]
    rw [List.find?_cons_of_neg _ (by simpa using fun hk => h hk.symm)]
    simp [mapGet]

theorem mapGet_mapDelete_self (m : List (String × Item)) (k : String) :
    mapGet (mapDelete m k) k = none := by
  induction m with
  | nil => rfl
  | cons e es ih =>
    by_cases he : e.1 = k
    · rw [mapDelete, List.filter_cons, if_neg (by simpa using he)]
      exact ih
    · rw [mapDelete, List.filter_cons, if_pos (by simpa using he),
        mapGet_cons_ne _ _ _ he]
      exact ih

theorem mapGet_mapDelete_ne (m : List (String × Item)) (k k' : String)
    (h : k' ≠ k) :
    mapGet (mapDelete m k) k' = mapGet m k' := by
  induction m with
  | nil => rfl
  | cons e es ih =>
    by_cases he : e.1 = k
    · rw [mapDelete, List.filter_cons, if_neg (by simpa using he),
        mapGet_cons_ne _ _ _ (by rw [he]; exact fun hk => h hk.symm)]
      exact ih
    · rw [mapDelete, List.filter_cons, if_pos (by simpa using he)]
      by_cases he' : e.1 = k'
      · rw [mapGet_cons_self _ _ _ he', mapGet_cons_self _ _ _ he']
      · rw [mapGet_cons_ne _ _ _ he', mapGet_cons_ne _ _ _ he']
        exact ih

/-! ## Helper lemmas: Bool contains bridges -/

theorem contains_true_iff (l : List String) (a : String) :
    l.contains a = true ↔ a ∈ l := List.elem_iff

theorem contains_false_iff (l : List String) (a : String) :
    l.contains a = false ↔ a ∉ l := by
  constructor
  · intro h hc
    rw [(contains_true_iff l a).mpr hc] at h
    cases h
  · intro h
    cases hc : l.contains a
    · rfl
    · exact absurd ((contains_true_iff l a).mp hc) h

/-! ## Claim C5: commitSelection is a single toggle-clear-upsert operation -/

/-- C5.  For every selection state and id, `commitSelection` performs the
commit as one logical operation: when the id is already selected it is
removed and the surviving ids keep their relative order (the new sequence
is a sublist of the old containing exactly the other ids); when it is not
selected it is placed at the MRU front of the sequence; the search text
is always cleared; and in server mode the cache entry for the id is
deleted on remove, and on add the fetched item (when present among the
fetched items) is upserted while every other key is untouched. -/
theorem commitSelection_spec (isAsync : Bool) (asyncItems : List Item)
    (st : SelectionState) (id : String) :
    (commitSelection isAsync asyncItems st id).query = [] ∧
    (st.selectedIds.contains id = true →
      (commitSelection isAsync asyncItems st id).selectedIds.contains id = false ∧
      (commitSelection isAsync asyncItems st id).selectedIds.Sublist st.selectedIds ∧
      (∀ x, x ∈ (commitSelection isAsync asyncItems st id).selectedIds ↔
        x ∈ st.selectedIds ∧ x ≠ id) ∧
      (isAsync = true →
        mapGet (commitSelection isAsync asyncItems st id).cache id = none ∧
        ∀ k, k ≠ id →
          mapGet (commitSelection isAsync asyncItems st id).cache k = mapGet st.cache k)) ∧
    (st.selectedIds.contains id = false →
      (commitSelection isAsync asyncItems st id).selectedIds = id :: st.selectedIds ∧
      (isAsync = true →
        ∀ item, asyncItems.find? (fun i => i.id = id) = some item →
          mapGet (commitSelection isAsync asyncItems st id).cache id = some item ∧
          ∀ k, k ≠ id →
            mapGet (commitSelection isAsync asyncItems st id).cache k = mapGet st.cache k)) := by
  refine ⟨rfl, fun hmem => ?_, fun hmem => ?_⟩
  · have hmem' : id ∈ st.selectedIds := (contains_true_iff _ _).mp hmem
    have hsel : (commitSelection isAsync asyncItems st id).selectedIds
        = st.selectedIds.filter (fun x => !(x = id)) := by
      simp [commitSelection, hmem']
    refine ⟨?_, ?_, ?_, fun hasync => ?_⟩
    · rw [hsel]
      refine (contains_false_iff _ _).mpr ?_
      simp [List.mem_filter]
    · rw [hsel]; exact List.filter_sublist _
    · intro x
      rw [hsel]
      simp [List.mem_filter]
    · have hcache : (commitSelection isAsync asyncItems st id).cache
          = mapDelete st.cache id := by
        simp [commitSelection, hmem', hasync]
      rw [hcache]
      exact ⟨mapGet_mapDelete_self _ _, fun k hk => mapGet_mapDelete_ne _ _ _ hk⟩
  · have hnotmem : id ∉ st.selectedIds := (contains_false_iff _ _).mp hmem
    have hfilter : st.selectedIds.filter (fun x => !(x = id)) = st.selectedIds :=
      List.filter_eq_self.mpr (fun a ha => by
        simp only [Bool.not_eq_true', decide_eq_false_iff_not]
        exact fun he => hnotmem (he ▸ ha))
    refine ⟨?_, fun hasync item hfind => ?_⟩
    · simp [commitSelection, hnotmem, hfilter]
    · have hcache : (commitSelection isAsync asyncItems st id).cache
          = mapSet st.cache id item := by
        simp [commitSelection, hnotmem, hasync, hfind]
      rw [hcache]
      exact ⟨mapGet_mapSet_self _ _ _, fun k hk => mapGet_mapSet_ne _ _ _ _ hk⟩

/-- Witness for C5 at a concrete state: removing a selected id in server
mode. -/
theorem commitSelection_spec_witness :
    (({ selectedIds := ["a", "b"], query := ['q'],
        cache := [("a", ⟨"a", ['A'], none⟩)] } : SelectionState).selectedIds.contains "a" = true) ∧
    (commitSelection true []
      { selectedIds := ["a", "b"], query := ['q'],
        cache := [("a", ⟨"a", ['A'], none⟩)] } "a").query = [] := by
  refine ⟨by decide, ?_⟩
  exact (commitSelection_spec true []
    { selectedIds := ["a", "b"], query := ['q'],
      cache := [("a", ⟨"a", ['A'], none⟩)] } "a").1

/-! ## Claim C10: adding an unfetched id leaves the server-mode cache unchanged -/

/-- C10.  In server mode, committing an id that is not currently selected
and whose item is absent from the fetched list leaves the selected-item
cache completely unchanged, so label lookup for that id can only hit a
pre-existing cache entry or the fetched items, and returns nothing when
neither holds. -/
theorem commitSelection_unfetched_cache (st : SelectionState) (id : String)
    (asyncItems : List Item)
    (hnotsel : st.selectedIds.contains id = false)
    (hnotfetched : asyncItems.find? (fun i => i.id = id) = none) :
    (commitSelection true asyncItems st id).cache = st.cache ∧
    getSelectedItem id false none (commitSelection true asyncItems st id).cache asyncItems
      = mapGet st.cache id ∧
    (mapGet st.cache id = none →
      getSelectedItem id false none
        (commitSelection true asyncItems st id).cache asyncItems = none) := by
  have hnotmem : id ∉ st.selectedIds := (contains_false_iff _ _).mp hnotsel
  have hcache : (commitSelection true asyncItems st id).cache = st.cache := by
    simp [commitSelection, hnotmem, hnotfetched]
  refine ⟨hcache, ?_, ?_⟩
  · rw [getSelectedItem, if_neg (by simp), hcache, hnotfetched]
    cases mapGet st.cache id <;> rfl
  · intro hmiss
    rw [getSelectedItem, if_neg (by simp), hcache, hnotfetched, hmiss]
    rfl

/-- Witness for C10: selecting an id absent from the fetched page keeps
the cache empty. -/
theorem commitSelection_unfetched_cache_witness :
    (({ selectedIds := [], query := [], cache := [] } : SelectionState).selectedIds.contains "z" = false) ∧
    ([(⟨"1", ['A'], none⟩ : Item)].find? (fun i => i.id = "z") = none) ∧
    (commitSelection true [⟨"1", ['A'], none⟩]
      { selectedIds := [], query := [], cache := [] } "z").cache = [] := by
  refine ⟨by decide, by decide, ?_⟩
  exact (commitSelection_unfetched_cache
    { selectedIds := [], query := [], cache := [] } "z" [⟨"1", ['A'], none⟩]
    (by decide) (by decide)).1

/-! ## Claim C7: the virtualization window stays in bounds -/

/-- C7.  For every non-negative scroll offset, positive row height,
viewport height, overscan and item count, the window rendered by the
VirtualList — the contiguous range from
`max(0, floor(scrollOffset / rowHeight) - overscan)` to
`min(totalCount - 1, ceil((scrollOffset + viewportHeight) / rowHeight) + overscan)` —
contains no index outside `[0, totalCount - 1]`, and an empty item list
yields an empty window. -/
theorem window_in_bounds (scrollTop height rowHeight overscan total : Nat)
    (hrow : 0 < rowHeight) :
    (∀ i ∈ windowIndices scrollTop height rowHeight overscan total,
        0 ≤ i ∧ i ≤ (total : Int) - 1) ∧
    windowIndices scrollTop height rowHeight overscan 0 = [] := by
  constructor
  · intro i hi
    simp only [windowIndices] at hi
    obtain ⟨k, hk, rfl⟩ := List.mem_map.mp hi
    rw [List.mem_range] at hk
    have hs : (0 : Int) ≤ startIndex scrollTop rowHeight overscan := le_max_left _ _
    have hk' := Int.lt_toNat.mp hk
    have he : endIndex scrollTop height rowHeight overscan total ≤ (total : Int) - 1 :=
      min_le_left _ _
    omega
  · have hs : (0 : Int) ≤ startIndex scrollTop rowHeight overscan := le_max_left _ _
    have he : endIndex scrollTop height rowHeight overscan 0 ≤ (0 : Int) - 1 :=
      min_le_left _ _
    rw [windowIndices]
    have hz : (endIndex scrollTop height rowHeight overscan 0 + 1
        - startIndex scrollTop rowHeight overscan).toNat = 0 :=
      Int.toNat_eq_zero.mpr (by omega)
    rw [hz]
    rfl

/-- Witness for C7 at concrete geometry: row height 36, viewport 288,
overscan 6, 50 items, scrolled to 100px. -/
theorem window_in_bounds_witness :
    0 < 36 ∧
    ((∀ i ∈ windowIndices 100 288 36 6 50, 0 ≤ i ∧ i ≤ (50 : Int) - 1) ∧
      windowIndices 100 288 36 6 0 = []) :=
  ⟨by decide, window_in_bounds 100 288 36 6 50 (by decide)⟩

/-! ## Claim C8 (corrected): Backspace removes the end of the selection sequence -/

/-- Counterexample to C8 as stated.  Selecting "a" and then "b" through
`commitSelection` yields the MRU-front sequence ["b", "a"], in which the
most-recently-added selected id is "b".  A Backspace with empty search
text instead removes the LAST element "a" (the least-recently-added id):
the resulting selection is ["b"], not the ["a"] the claim requires. -/
theorem backspace_removes_oldest_cex :
    (commitSelection false []
      (commitSelection false [] { selectedIds := [], query := [], cache := [] } "a")
      "b").selectedIds = ["b", "a"] ∧
    (backspaceStep [] ["b", "a"] []).1 = ["b"] ∧
    (["b"] : List String) ≠ ["a"] := by
  refine ⟨by decide, by decide, by decide⟩

/-- C8 as amended.  With empty search text and a non-empty selection
whose last element is a non-empty id, Backspace removes the LAST element
of the MRU-front-ordered selection sequence — the least-recently-added
selected id — keeping the remaining prefix unchanged, and promotes the
removed id to the front of the separate `mruOrder` list. -/
theorem backspace_spec (query : List Char) (selectedIds mruOrder : List String)
    (last : String)
    (hq : query = []) (hlast : selectedIds.getLast? = some last)
    (hne : last ≠ "") :
    (backspaceStep query selectedIds mruOrder).1 = selectedIds.dropLast ∧
    selectedIds.dropLast ++ [last] = selectedIds ∧
    (backspaceStep query selectedIds mruOrder).2.head? = some last ∧
    (∀ x, x ∈ (backspaceStep query selectedIds mruOrder).2 ↔
      x = last ∨ (x ∈ mruOrder ∧ x ≠ last)) := by
  have hnonempty : selectedIds.length ≠ 0 := by
    obtain ⟨ys, rfl⟩ := List.getLast?_eq_some_iff.mp hlast
    simp
  have hstep : backspaceStep query selectedIds mruOrder
      = (selectedIds.dropLast, last :: mruOrder.filter (fun x => !(x = last))) := by
    rw [backspaceStep, if_pos ⟨hq, hnonempty⟩, hlast]
    exact if_pos hne
  refine ⟨by rw [hstep], ?_, by rw [hstep]; rfl, ?_⟩
  · exact List.dropLast_append_getLast? last hlast
  · intro x
    rw [hstep]
    simp [List.mem_filter]

/-- Witness for the amended C8 at the counterexample's state. -/
theorem backspace_spec_witness :
    (([] : List Char) = []) ∧ (["b", "a"].getLast? = some "a") ∧ ("a" ≠ "") ∧
    (backspaceStep [] ["b", "a"] []).1 = ["b", "a"].dropLast :=
  ⟨rfl, by decide, by decide,
    (backspace_spec [] ["b", "a"] [] "a" rfl (by decide) (by decide)).1⟩

/-! ## Claim C9 (corrected): space commits exactly when the query is all whitespace -/

/-- Counterexample to C9 as stated.  With search text consisting of a
single space — non-empty, whitespace-only — the space key still commits
the item at the cursor, because the code gates on `!query.trim()` rather
than on emptiness of the raw text. -/
theorem space_commits_on_blank_cex :
    spaceKeyCommit [' '] [⟨"1", ['A'], none⟩] 0 = some "1" ∧
    ([' '] : List Char) ≠ [] := by
  refine ⟨by decide, by decide⟩

/-- The trimmed text is empty exactly when every character of the text is
whitespace. -/
theorem jsTrim_eq_nil_iff (s : List Char) :
    jsTrim s = [] ↔ s.all isJsWhitespace = true := by
  rw [jsTrim, List.reverse_eq_nil_iff, List.dropWhile_eq_nil_iff, List.all_eq_true]
  constructor
  · intro h x hx
    by_cases hws : isJsWhitespace x = true
    · exact hws
    · have hx' : x ∈ List.takeWhile isJsWhitespace s ++ List.dropWhile isJsWhitespace s := by
        rw [List.takeWhile_append_dropWhile]
        exact hx
      rcases List.mem_append.mp hx' with h1 | h1
      · exact List.mem_takeWhile_imp h1
      · exact h x (List.mem_reverse.mpr h1)
  · intro h x hx
    exact h x ((List.dropWhile_sublist isJsWhitespace).subset (List.mem_reverse.mp hx))

/-- C9 as amended.  While the view is open, a space key commits the item
at the active cursor exactly when the search text contains no
non-whitespace character (its trim is empty) and the cursor addresses an
existing item; any search text containing a non-whitespace character
leaves the selection unchanged. -/
theorem space_commit_iff_blank (query : List Char) (orderedItems : List Item)
    (activeIndex : Nat) :
    (spaceKeyCommit query orderedItems activeIndex).isSome
      = (query.all isJsWhitespace && (orderedItems[activeIndex]?).isSome) := by
  rw [spaceKeyCommit]
  by_cases hq : jsTrim query = []
  · rw [if_pos hq, ((jsTrim_eq_nil_iff query).mp hq : _), Bool.true_and]
    exact Option.isSome_map
  · rw [if_neg hq]
    have : query.all isJsWhitespace = false := by
      cases hall : query.all isJsWhitespace
      · rfl
      · exact absurd ((jsTrim_eq_nil_iff query).mpr hall) hq
    rw [this, Bool.false_and]
    rfl

/-! ## Claim C2: stale completions of superseded requests are no-ops -/

theorem markAborted_length (rs : List Req) (i : Nat) :
    (markAborted rs i).length = rs.length := by
  induction rs generalizing i with
  | nil => rfl
  | cons r rs ih =>
    cases i with
    | zero => rfl
    | succ n => simp [markAborted, ih]

theorem markAborted_getElem? (rs : List Req) (i j : Nat) :
    (markAborted rs i)[j]? =
      if i = j then (rs[j]?).map (fun r => { r with aborted := true }) else rs[j]? := by
  induction rs generalizing i j with
  | nil => simp [markAborted]
  | cons r rs ih =>
    cases i with
    | zero =>
      cases j with
      | zero => simp [markAborted]
      | succ m => simp [markAborted]
    | succ n =>
      cases j with
      | zero => simp [markAborted]
      | succ m =>
        simp only [markAborted, List.getElem?_cons_succ]
        rw [ih]
        by_cases h : n = m
        · rw [if_pos h, if_pos (by omega)]
        · rw [if_neg h, if_neg (by omega)]

/-- The request log after a `loadMore` call: unchanged when the guard
trips, otherwise the (possibly aborted) old log plus the fresh request. -/
theorem stepStartLoad_reqs (m : LoaderMachine) (reset : Bool) :
    (stepStartLoad m reset).reqs =
      if m.loadingRef then m.reqs
      else (match m.active with
            | some i => markAborted m.reqs i
            | none => m.reqs) ++ [(⟨false, reset⟩ : Req)] := by
  rw [stepStartLoad]
  by_cases hload : m.loadingRef
  · rw [if_pos hload, if_pos hload]
  · rw [if_neg hload, if_neg hload]
    cases m.active <;> cases reset <;> rfl

/-- Once a request is recorded as aborted, every loader event preserves
that fact (no event resets an abort flag, and request indices are never
reused). -/
theorem stepEvent_preserves_aborted (m : LoaderMachine) (ev : LoaderEvent)
    (rid : Nat) (r : Req) (h : m.reqs[rid]? = some r) (ha : r.aborted = true) :
    ∃ r', (stepEvent m ev).reqs[rid]? = some r' ∧ r'.aborted = true := by
  have hlt : rid < m.reqs.length := (List.getElem?_eq_some_iff.mp h).1
  cases ev with
  | startLoad reset =>
    rw [stepEvent, stepStartLoad_reqs]
    by_cases hload : m.loadingRef
    · rw [if_pos hload]; exact ⟨r, h, ha⟩
    · rw [if_neg hload]
      cases hact : m.active with
      | none =>
        refine ⟨r, ?_, ha⟩
        rw [List.getElem?_append_left hlt]
        exact h
      | some i =>
        rw [List.getElem?_append_left (by rw [markAborted_length]; exact hlt),
          markAborted_getElem?]
        by_cases hij : i = rid
        · rw [if_pos hij, h]
          exact ⟨_, rfl, rfl⟩
        · rw [if_neg hij]
          exact ⟨r, h, ha⟩
  | queryChangeAbort =>
    rw [stepEvent, stepQueryChangeAbort]
    cases hact : m.active with
    | none => exact ⟨r, h, ha⟩
    | some i =>
      rw [markAborted_getElem?]
      by_cases hij : i = rid
      · rw [if_pos hij, h]
        exact ⟨_, rfl, rfl⟩
      · rw [if_neg hij]
        exact ⟨r, h, ha⟩
  | syncLoadingRef => exact ⟨r, h, ha⟩
  | complete rid' res =>
    have hreqs : (stepComplete m rid' res).reqs = m.reqs := by
      rw [stepComplete]
      cases hfind : m.reqs[rid']? with
      | none => rfl
      | some req =>
        by_cases hab : req.aborted = true
        · simp [hab]
        · simp only [hab]
          cases res <;> rfl
    rw [stepEvent, hreqs]
    exact ⟨r, h, ha⟩

theorem runEvents_preserves_aborted (tr : List LoaderEvent) (m : LoaderMachine)
    (rid : Nat) (r : Req) (h : m.reqs[rid]? = some r) (ha : r.aborted = true) :
    ∃ r', (runEvents m tr).reqs[rid]? = some r' ∧ r'.aborted = true := by
  induction tr generalizing m r with
  | nil => exact ⟨r, h, ha⟩
  | cons ev tr ih =>
    obtain ⟨r', h', ha'⟩ := stepEvent_preserves_aborted m ev rid r h ha
    exact ih (stepEvent m ev) r' h' ha'

/-- The completion of an aborted request leaves the machine state
entirely unchanged (its handler returns before any state update, and the
`finally` clause is guarded by the same abort check). -/
theorem stepComplete_aborted_noop (m : LoaderMachine) (rid : Nat)
    (res : Except String (List Item)) (r : Req)
    (h : m.reqs[rid]? = some r) (ha : r.aborted = true) :
    stepComplete m rid res = m := by
  rw [stepComplete, h]
  simp only [ha]
  exact if_pos trivial

/-- C2.  Consider any loader state holding an in-flight request `rid`
(the active controller) with the `loadingRef` guard clear, superseded by
a new reset-and-load (`loadMore(true)`).  However many further loader
events of any kind are interleaved afterwards, the eventual settlement of
the superseded request — success or failure alike — has no observable
effect: the item buffer, the page counter, the `hasMore` flag and the
surfaced error are all exactly as they were before the stale completion
arrived. -/
theorem stale_completion_no_effect (m : LoaderMachine) (rid : Nat)
    (tr : List LoaderEvent) (res : Except String (List Item))
    (hactive : m.active = some rid) (hlen : rid < m.reqs.length)
    (href : m.loadingRef = false) :
    obs (stepComplete (runEvents (stepStartLoad m true) tr) rid res)
      = obs (runEvents (stepStartLoad m true) tr) := by
  have hr0 : m.reqs[rid]? = some (m.reqs.get ⟨rid, hlen⟩) := by
    rw [List.getElem?_eq_getElem hlen]
    rfl
  have haborted : ∃ r', (stepStartLoad m true).reqs[rid]? = some r'
      ∧ r'.aborted = true := by
    rw [stepStartLoad_reqs, if_neg (by rw [href]; exact Bool.false_ne_true), hactive]
    rw [List.getElem?_append_left (by rw [markAborted_length]; exact hlen),
      markAborted_getElem?, if_pos rfl, hr0]
    exact ⟨_, rfl, rfl⟩
  obtain ⟨r1, hr1, ha1⟩ := haborted
  obtain ⟨r2, hr2, ha2⟩ :=
    runEvents_preserves_aborted tr (stepStartLoad m true) rid r1 hr1 ha1
  rw [stepComplete_aborted_noop _ _ _ r2 hr2 ha2]

/-- A concrete loader state with one live in-flight reset request. -/
def staleDemoMachine : LoaderMachine where
  asyncItems := []
  page := 0
  hasMore := true
  error := none
  loading := true
  loadingRef := false
  cache := []
  reqs := [⟨false, true⟩]
  active := some 0
  selectedIds := []
  pageSize := 2

/-- Witness for C2: a single in-flight request superseded by a
reset-and-load; its late successful completion changes nothing. -/
theorem stale_completion_no_effect_witness :
    staleDemoMachine.active = some 0 ∧
    0 < staleDemoMachine.reqs.length ∧
    staleDemoMachine.loadingRef = false ∧
    obs (stepComplete (runEvents (stepStartLoad staleDemoMachine true) [])
        0 (.ok [⟨"1", ['A'], none⟩]))
      = obs (runEvents (stepStartLoad staleDemoMachine true) []) :=
  ⟨rfl, by decide, rfl,
    stale_completion_no_effect staleDemoMachine 0 [] (.ok [⟨"1", ['A'], none⟩])
      rfl (by decide) rfl⟩

/-! ## Helper lemmas: the scan loop of the fuzzy matcher -/

theorem scanMatch_eq_none_iff (c : Char) (l : List Char) :
    scanMatch c l = none ↔ c ∉ l := by
  induction l with
  | nil => simp [scanMatch]
  | cons x xs ih =>
    rw [scanMatch]
    by_cases hx : x = c
    · simp [hx]
    · rw [if_neg hx, Option.map_eq_none']
      rw [ih, List.mem_cons]
      constructor
      · intro hnot hor
        rcases hor with heq | hmem
        · exact hx heq.symm
        · exact hnot hmem
      · intro hnot hmem
        exact hnot (Or.inr hmem)

theorem scanMatch_drop (c : Char) (l : List Char) (r : Nat)
    (h : scanMatch c l = some r) : l.drop r = c :: l.drop (r + 1) := by
  induction l generalizing r with
  | nil => cases h
  | cons x xs ih =>
    rw [scanMatch] at h
    by_cases hx : x = c
    · rw [if_pos hx] at h
      cases h
      subst hx
      rfl
    · rw [if_neg hx] at h
      cases hs : scanMatch c xs with
      | none => rw [hs] at h; cases h
      | some r' =>
        rw [hs] at h
        cases h
        simpa [List.drop_succ_cons] using ih r' hs

theorem scanMatch_getElem? (c : Char) (l : List Char) (r : Nat)
    (h : scanMatch c l = some r) : l[r]? = some c := by
  have hd := scanMatch_drop c l r h
  have h0 : (l.drop r)[0]? = l[r]? := by
    rw [List.getElem?_drop, Nat.add_zero]
  rw [← h0, hd]
  simp

theorem scanMatch_sublist_iff (c : Char) (cs : List Char) (l : List Char) (r : Nat)
    (h : scanMatch c l = some r) :
    (c :: cs).Sublist l ↔ cs.Sublist (l.drop (r + 1)) := by
  induction l generalizing r with
  | nil => cases h
  | cons x xs ih =>
    rw [scanMatch] at h
    by_cases hx : x = c
    · rw [if_pos hx] at h
      cases h
      subst hx
      rw [List.drop_succ_cons, List.drop_zero]
      exact List.cons_sublist_cons
    · rw [if_neg hx] at h
      cases hs : scanMatch c xs with
      | none => rw [hs] at h; cases h
      | some r' =>
        rw [hs] at h
        cases h
        rw [List.drop_succ_cons, ← ih r' hs]
        constructor
        · intro hsub
          cases hsub with
          | cons _ h' => exact h'
          | cons₂ _ h' => exact absurd rfl hx
        · intro hsub
          exact List.Sublist.cons _ hsub

/-- The main loop succeeds exactly when the remaining needle characters
form an ordered subsequence of the haystack suffix from the current
cursor: the greedy leftmost-match strategy is complete. -/
theorem fuzzyLoop_isSome_iff (h : List Char) (rest : List Char)
    (prev : Option Char) (acc : FuzzyAcc) :
    (fuzzyLoop h rest prev acc).isSome = true ↔
      rest.Sublist (h.drop acc.hIdx) := by
  induction rest generalizing prev acc with
  | nil => simp [fuzzyLoop, List.nil_sublist]
  | cons c cs ih =>
    rw [fuzzyLoop]
    cases hscan : scanMatch c (h.drop acc.hIdx) with
    | none =>
      simp only [Option.isSome_none, Bool.false_eq_true, false_iff]
      intro hsub
      exact ((scanMatch_eq_none_iff c _).mp hscan)
        (hsub.subset (List.mem_cons_self c cs))
    | some rel =>
      simp only [hscan]
      rw [ih]
      have := scanMatch_sublist_iff c cs (h.drop acc.hIdx) rel hscan
      rw [this, List.drop_drop, Nat.add_assoc]

/-! ## Claim C3: match ⟺ case-insensitive ordered subsequence, score 0 on empty, non-negative -/

theorem fuzzyScore_isSome_eq_loop (haystack needle : List Char)
    (hn : needle ≠ []) :
    (fuzzyScore haystack needle).isSome
      = (fuzzyLoop (haystack.map Char.toLower) (needle.map Char.toLower)
          none ⟨0, 0, 0, none⟩).isSome := by
  simp only [fuzzyScore, if_neg hn]
  cases fuzzyLoop (haystack.map Char.toLower) (needle.map Char.toLower)
    none ⟨0, 0, 0, none⟩ <;> rfl

/-- C3.  `fuzzyScore` scores the empty needle 0 on every haystack,
yields a score exactly when the lowercased needle is an ordered
subsequence of the lowercased haystack (and no-match otherwise), and
every score it yields is non-negative. -/
theorem fuzzyScore_spec (haystack needle : List Char) :
    fuzzyScore haystack [] = some 0 ∧
    ((fuzzyScore haystack needle).isSome = true ↔
      (needle.map Char.toLower).Sublist (haystack.map Char.toLower)) ∧
    0 ≤ (fuzzyScore haystack needle).getD 0 := by
  refine ⟨rfl, ?_, ?_⟩
  · by_cases hn : needle = []
    · subst hn
      simp [fuzzyScore, List.nil_sublist]
    · rw [fuzzyScore_isSome_eq_loop haystack needle hn,
        fuzzyLoop_isSome_iff]
      rw [show (⟨0, 0, 0, none⟩ : FuzzyAcc).hIdx = 0 from rfl, List.drop_zero]
  · by_cases hn : needle = []
    · rw [fuzzyScore, if_pos hn]
      rfl
    · simp only [fuzzyScore, if_neg hn]
      cases fuzzyLoop (haystack.map Char.toLower) (needle.map Char.toLower)
        none ⟨0, 0, 0, none⟩ with
      | none => rfl
      | some acc =>
        simp only [Option.getD_some]
        exact le_max_left _ _

/-! ## Claim C6 (corrected): how the consecutive-run counter really extends -/

/-- Relation between a result of the code's loop and of the adjacency
loop: both fail together; on success they agree on the cursor, the
penalty and the first match, and the code's run counter is at least the
adjacency-based one. -/
def loopRel : Option FuzzyAcc → Option FuzzyAcc → Prop
  | some a, some b =>
      a.hIdx = b.hIdx ∧ a.penalty = b.penalty ∧ a.firstMatch = b.firstMatch ∧
      b.consecutive ≤ a.consecutive
  | none, none => True
  | _, _ => False

theorem fuzzyLoop_adj_rel (h : List Char) (rest : List Char)
    (pc : Option Char) (lm : Option Nat) (hIdx : Nat) (pen : Int)
    (fm : Option Nat) (cc ca : Nat)
    (hcompat : (pc = none ∧ lm = none) ∨
      (∃ p k, pc = some p ∧ lm = some k ∧ h[k]? = some p ∧ hIdx = k + 1))
    (hca : ca ≤ cc) :
    loopRel (fuzzyLoop h rest pc ⟨hIdx, pen, cc, fm⟩)
      (fuzzyLoopAdj h rest lm ⟨hIdx, pen, ca, fm⟩) := by
  induction rest generalizing pc lm hIdx pen fm cc ca with
  | nil => exact ⟨rfl, rfl, rfl, hca⟩
  | cons c cs ih =>
    simp only [fuzzyLoop, fuzzyLoopAdj]
    cases hscan : scanMatch c (List.drop hIdx h) with
    | none => exact trivial
    | some rel =>
      have hmatched : h[hIdx + rel]? = some c := by
        rw [← List.getElem?_drop]
        exact scanMatch_getElem? c _ rel hscan
      rcases hcompat with ⟨hpc, hlm⟩ | ⟨p, k, hpc, hlm, hk, hidx⟩
      · subst hpc; subst hlm
        exact ih (some c) (some (hIdx + rel)) (hIdx + rel + 1) _ _ _ _
          (Or.inr ⟨c, hIdx + rel, rfl, rfl, hmatched, rfl⟩) (le_refl 1)
      · subst hpc; subst hlm
        have hca' : (if hIdx + rel = k + 1 then ca + 1 else 1)
            ≤ (if 0 < hIdx + rel ∧ h[hIdx + rel - 1]? = some p then cc + 1 else 1) := by
          by_cases hadj : hIdx + rel = k + 1
          · rw [if_pos hadj, if_pos ⟨by omega, by rw [hadj]; simpa using hk⟩]
            omega
          · rw [if_neg hadj]
            by_cases hcode : 0 < hIdx + rel ∧ h[hIdx + rel - 1]? = some p
            · rw [if_pos hcode]; omega
            · rw [if_neg hcode]
        exact ih (some c) (some (hIdx + rel)) (hIdx + rel + 1) _ _ _ _
          (Or.inr ⟨c, hIdx + rel, rfl, rfl, hmatched, rfl⟩) hca'

/-- Counterexample to C6 as stated.  On haystack "xaab" and needle "ab",
needle characters 'a' and 'b' are matched at haystack positions 1 and 3 —
not adjacent — yet the code still counts a run of 2, because the haystack
character before the 'b' match happens to equal the previous needle
character 'a'.  The adjacency reading of the claim yields score 1 here;
the code yields 0. -/
theorem fuzzy_run_adjacent_cex :
    fuzzyScore ['x', 'a', 'a', 'b'] ['a', 'b'] = some 0 ∧
    fuzzyScoreAdj ['x', 'a', 'a', 'b'] ['a', 'b'] = some 1 ∧
    fuzzyScore ['x', 'a', 'a', 'b'] ['a', 'b']
      ≠ fuzzyScoreAdj ['x', 'a', 'a', 'b'] ['a', 'b'] := by
  refine ⟨by decide, by decide, by decide⟩

/-- C6 as amended.  The run counter extends whenever the haystack
character immediately before the current match equals the previous
needle character — a condition implied by, but weaker than, adjacency of
the matched positions (and a broken run still resets the counter to 1).
Consequently the two loops match exactly the same needles, and because
only the final run length is subtracted once, the code's score is always
at most the score of the adjacency reading. -/
theorem fuzzyScore_run_spec (haystack needle : List Char) :
    (fuzzyScore haystack needle).isSome = (fuzzyScoreAdj haystack needle).isSome ∧
    (fuzzyScore haystack needle).getD 0 ≤ (fuzzyScoreAdj haystack needle).getD 0 := by
  by_cases hn : needle = []
  · subst hn
    exact ⟨rfl, le_refl 0⟩
  · have hrel := fuzzyLoop_adj_rel (haystack.map Char.toLower)
      (needle.map Char.toLower) none none 0 0 none 0 0
      (Or.inl ⟨rfl, rfl⟩) (le_refl 0)
    simp only [fuzzyScore, fuzzyScoreAdj, if_neg hn]
    cases hc : fuzzyLoop (haystack.map Char.toLower) (needle.map Char.toLower)
        none ⟨0, 0, 0, none⟩ with
    | none =>
      cases ha : fuzzyLoopAdj (haystack.map Char.toLower) (needle.map Char.toLower)
          none ⟨0, 0, 0, none⟩ with
      | none => exact ⟨rfl, le_refl 0⟩
      | some b =>
        rw [hc, ha] at hrel
        cases hrel
    | some a =>
      cases ha : fuzzyLoopAdj (haystack.map Char.toLower) (needle.map Char.toLower)
          none ⟨0, 0, 0, none⟩ with
      | none =>
        rw [hc, ha] at hrel
        cases hrel
      | some b =>
        rw [hc, ha] at hrel
        obtain ⟨hhidx, hpen, hfm, hcons⟩ := hrel
        refine ⟨rfl, ?_⟩
        simp only [Option.getD_some]
        rw [hpen, hfm]
        have hcast : (b.consecutive : Int) ≤ (a.consecutive : Int) := by
          exact_mod_cast hcons
        exact max_le_max (le_refl 0) (sub_le_sub_left hcast _)

/-! ## Helper lemmas: MRU ranks and stable sorting -/

theorem lastIndexOf_eq_none_iff (l : List String) (id : String) :
    lastIndexOf l id = none ↔ id ∉ l := by
  induction l with
  | nil => simp [lastIndexOf]
  | cons x xs ih =>
    rw [lastIndexOf]
    cases hx : lastIndexOf xs id with
    | some j =>
      have hmem : id ∈ xs := by
        by_contra hm
        rw [ih.mpr hm] at hx
        cases hx
      simp [List.mem_cons, hmem]
    | none =>
      have hmem : id ∉ xs := ih.mp hx
      by_cases hxe : x = id
      · subst hxe
        simp
      · rw [if_neg hxe]
        simp only [List.mem_cons]
        constructor
        · intro _ hor
          rcases hor with heq | hm
          · exact hxe heq.symm
          · exact hmem hm
        · intro _
          trivial

theorem lastIndexOf_getElem? (l : List String) (id : String) (j : Nat)
    (h : lastIndexOf l id = some j) : l[j]? = some id := by
  induction l generalizing j with
  | nil => cases h
  | cons x xs ih =>
    rw [lastIndexOf] at h
    cases hx : lastIndexOf xs id with
    | some j' =>
      rw [hx] at h
      cases h
      rw [List.getElem?_cons_succ]
      exact ih j' hx
    | none =>
      rw [hx] at h
      by_cases hxe : x = id
      · rw [if_pos hxe] at h
        cases h
        rw [List.getElem?_cons_zero, hxe]
      · rw [if_neg hxe] at h
        cases h

theorem lastIndexOf_isSome_of_mem (l : List String) (id : String)
    (h : id ∈ l) : ∃ j, lastIndexOf l id = some j := by
  cases hx : lastIndexOf l id with
  | none => exact absurd ((lastIndexOf_eq_none_iff l id).mp hx) (by simpa using h)
  | some j => exact ⟨j, rfl⟩

theorem lastIndexOf_cons_of_mem (x : String) (xs : List String) (y : String)
    (h : y ∈ xs) :
    lastIndexOf (x :: xs) y = (lastIndexOf xs y).map (· + 1) := by
  obtain ⟨j, hj⟩ := lastIndexOf_isSome_of_mem xs y h
  rw [lastIndexOf, hj]
  rfl

theorem lastIndexOf_cons_self (x : String) (xs : List String) (h : x ∉ xs) :
    lastIndexOf (x :: xs) x = some 0 := by
  rw [lastIndexOf, (lastIndexOf_eq_none_iff xs x).mpr h, if_pos rfl]

/-- In a duplicate-free id list, the elements appear in strictly
increasing order of their own rank. -/
theorem pairwise_rank_lt (sel : List String) (hsel : sel.Nodup) :
    List.Pairwise
      (fun s t => (lastIndexOf sel s).getD 0 < (lastIndexOf sel t).getD 0) sel := by
  induction sel with
  | nil => exact List.Pairwise.nil
  | cons x xs ih =>
    have hx : x ∉ xs := (List.nodup_cons.mp hsel).1
    have hxs : xs.Nodup := (List.nodup_cons.mp hsel).2
    refine List.Pairwise.cons ?_ ?_
    · intro y hy
      rw [lastIndexOf_cons_self x xs hx, lastIndexOf_cons_of_mem x xs y hy]
      obtain ⟨j, hj⟩ := lastIndexOf_isSome_of_mem xs y hy
      rw [hj]
      simp
    · refine (ih hxs).imp_of_mem ?_
      intro s t hs ht hlt
      rw [lastIndexOf_cons_of_mem x xs s hs, lastIndexOf_cons_of_mem x xs t ht]
      obtain ⟨js, hjs⟩ := lastIndexOf_isSome_of_mem xs s hs
      obtain ⟨jt, hjt⟩ := lastIndexOf_isSome_of_mem xs t ht
      rw [hjs, hjt] at hlt ⊢
      simpa using Nat.succ_lt_succ (by simpa using hlt)

theorem rankLE_trans (a b c : Option Nat) (hab : rankLE a b = true)
    (hbc : rankLE b c = true) : rankLE a c = true := by
  cases a <;> cases b <;> cases c <;> simp_all [rankLE] <;> omega

theorem rankLE_total (a b : Option Nat) : (rankLE a b || rankLE b a) = true := by
  cases a <;> cases b <;> simp [rankLE] <;> omega

/-- Two permuted lists whose key images are equal and duplicate-free are
equal. -/
theorem eq_of_perm_of_map_eq_nodup {α : Type u} {β : Type v} (key : α → β) :
    ∀ (l₁ l₂ : List α), l₁.Perm l₂ → l₁.map key = l₂.map key →
      (l₁.map key).Nodup → l₁ = l₂ := by
  intro l₁
  induction l₁ with
  | nil =>
    intro l₂ hp _ _
    cases l₂ with
    | nil => rfl
    | cons b t => exact absurd hp.length_eq (by simp)
  | cons a t₁ ih =>
    intro l₂ hp hmap hnd
    cases l₂ with
    | nil => exact absurd hp.length_eq (by simp)
    | cons b t₂ =>
      simp only [List.map_cons, List.cons.injEq] at hmap
      obtain ⟨hkey, hmaps⟩ := hmap
      have hab : a = b := by
        by_contra hne
        have hbmem : a ∈ t₂ := by
          have := hp.mem_iff.mp (List.mem_cons_self a t₁)
          rcases List.mem_cons.mp this with heq | hm
          · exact absurd heq hne
          · exact hm
        have : key a ∈ t₂.map key := List.mem_map_of_mem key hbmem
        rw [← hmaps] at this
        exact (List.nodup_cons.mp hnd).1 (hkey ▸ this)
      subst hab
      have := ih t₂ (hp.cons_inv) hmaps (List.nodup_cons.mp hnd).2
      rw [this]

/-- Two permuted lists that are both strictly sorted under a key are
equal. -/
theorem eq_of_perm_of_key_sorted {α : Type u} (key : α → Nat) (l₁ l₂ : List α)
    (hp : l₁.Perm l₂) (h₁ : (l₁.map key).Sorted (· < ·))
    (h₂ : (l₂.map key).Sorted (· < ·)) : l₁ = l₂ := by
  haveI : IsAntisymm Nat (· < ·) :=
    ⟨fun a b h₁ h₂ => absurd h₁ (Nat.lt_asymm h₂)⟩
  have hmapperm : (l₁.map key).Perm (l₂.map key) := hp.map key
  have hmapeq : l₁.map key = l₂.map key :=
    List.eq_of_perm_of_sorted hmapperm h₁ h₂
  have hnd : (l₁.map key).Nodup :=
    haveI : IsIrrefl Nat (· < ·) := ⟨Nat.lt_irrefl⟩
    h₁.nodup
  exact eq_of_perm_of_map_eq_nodup key l₁ l₂ hp hmapeq hnd

/-! ## Helper lemmas: find? and filterMap over unique ids -/

theorem find?_id_eq_some_of_mem (items : List Item) (it : Item)
    (hids : (items.map Item.id).Nodup) (hmem : it ∈ items) :
    items.find? (fun x => x.id = it.id) = some it := by
  induction items with
  | nil => cases hmem
  | cons y ys ih =>
    rw [List.map_cons] at hids
    have hnd := List.nodup_cons.mp hids
    rcases List.mem_cons.mp hmem with rfl | hm
    · rw [List.find?_cons_of_pos _ (by simp)]
    · have hy : ¬(y.id = it.id) := by
        intro he
        exact hnd.1 (he ▸ List.mem_map_of_mem Item.id hm)
      rw [List.find?_cons_of_neg _ (by simpa using hy)]
      exact ih hnd.2 hm

theorem map_key_filterMap {γ : Type u} (g : String → Option Item) (f : String → γ)
    (hg : ∀ sid x, g sid = some x → x.id = sid) (l : List String) :
    (l.filterMap g).map (fun x => f x.id)
      = (l.filter (fun sid => (g sid).isSome)).map f := by
  induction l with
  | nil => rfl
  | cons sid l ih =>
    cases hgs : g sid with
    | none =>
      rw [List.filterMap_cons_none hgs, List.filter_cons_of_neg (by simp [hgs])]
      exact ih
    | some x =>
      rw [List.filterMap_cons_some hgs, List.filter_cons_of_pos (by simp [hgs]),
        List.map_cons, List.map_cons, hg sid x hgs, ih]

theorem map_id_filterMap (g : String → Option Item)
    (hg : ∀ sid x, g sid = some x → x.id = sid) (l : List String) :
    (l.filterMap g).map Item.id = l.filter (fun sid => (g sid).isSome) := by
  have h := map_key_filterMap g (fun s => s) hg l
  simpa using h

/-- The sorted selected partition of `separateItems` is exactly the items
looked up in `selectedIds` order: the MRU prefix. -/
theorem sortedSelected_eq_filterMap (items : List Item) (sel : List String)
    (hids : (items.map Item.id).Nodup) (hsel : sel.Nodup) :
    (separateItems items sel).1
      = sel.filterMap (fun sid => items.find? (fun it => it.id = sid)) := by
  have hg : ∀ sid x, (fun sid => items.find? (fun it => it.id = sid)) sid = some x
      → x.id = sid := fun sid x hx => by simpa using List.find?_some hx
  have hitems_nd : items.Nodup := List.Nodup.of_map Item.id hids
  have hsel_nd : (items.filter (fun it => sel.contains it.id)).Nodup :=
    List.Nodup.filter _ hitems_nd
  have hfm_ids := map_id_filterMap (fun sid => items.find? (fun it => it.id = sid)) hg sel
  have hfm_nd : (sel.filterMap (fun sid => items.find? (fun it => it.id = sid))).Nodup := by
    refine List.Nodup.of_map Item.id ?_
    rw [hfm_ids]
    exact List.Nodup.filter _ hsel
  have hmem_iff : ∀ x, x ∈ items.filter (fun it => sel.contains it.id)
      ↔ x ∈ sel.filterMap (fun sid => items.find? (fun it => it.id = sid)) := by
    intro x
    rw [List.mem_filter, List.mem_filterMap]
    constructor
    · rintro ⟨hxi, hxc⟩
      exact ⟨x.id, (contains_true_iff _ _).mp hxc,
        find?_id_eq_some_of_mem items x hids hxi⟩
    · rintro ⟨sid, hsid, hfind⟩
      have hxi : x ∈ items := List.mem_of_find?_eq_some hfind
      have hxid : x.id = sid := by simpa using List.find?_some hfind
      exact ⟨hxi, (contains_true_iff _ _).mpr (hxid ▸ hsid)⟩
  have hperm : (items.filter (fun it => sel.contains it.id)).Perm
      (sel.filterMap (fun sid => items.find? (fun it => it.id = sid))) :=
    (List.perm_ext_iff_of_nodup hsel_nd hfm_nd).mpr hmem_iff
  have hperm_ms : ((items.filter (fun it => sel.contains it.id)).mergeSort
      (fun a b => rankLE (lastIndexOf sel a.id) (lastIndexOf sel b.id))).Perm
      (items.filter (fun it => sel.contains it.id)) :=
    List.mergeSort_perm _ _
  have hsorted_le := @List.sorted_mergeSort Item
    (fun a b : Item => rankLE (lastIndexOf sel a.id) (lastIndexOf sel b.id))
    (fun a b c hab hbc => rankLE_trans _ _ _ hab hbc)
    (fun a b => rankLE_total _ _)
    (items.filter (fun it => sel.contains it.id))
  have hms_ids_nd : (((items.filter (fun it => sel.contains it.id)).mergeSort
      (fun a b => rankLE (lastIndexOf sel a.id) (lastIndexOf sel b.id))).map Item.id).Nodup := by
    have hsub : ((items.filter (fun it => sel.contains it.id)).map Item.id).Sublist
        (items.map Item.id) := (List.filter_sublist items).map _
    exact ((hperm_ms.map Item.id).nodup_iff).mpr (List.Nodup.sublist hsub hids)
  have hpw_ne : List.Pairwise (fun a b : Item => a.id ≠ b.id)
      ((items.filter (fun it => sel.contains it.id)).mergeSort
        (fun a b => rankLE (lastIndexOf sel a.id) (lastIndexOf sel b.id))) :=
    List.pairwise_map.mp hms_ids_nd
  have hpw_lt : List.Pairwise
      (fun a b : Item => (lastIndexOf sel a.id).getD 0 < (lastIndexOf sel b.id).getD 0)
      ((items.filter (fun it => sel.contains it.id)).mergeSort
        (fun a b => rankLE (lastIndexOf sel a.id) (lastIndexOf sel b.id))) := by
    refine (hsorted_le.and hpw_ne).imp_of_mem ?_
    intro a b ha hb hab
    obtain ⟨hle, hne⟩ := hab
    have hasel : a.id ∈ sel :=
      (contains_true_iff _ _).mp (List.mem_filter.mp (hperm_ms.mem_iff.mp ha)).2
    have hbsel : b.id ∈ sel :=
      (contains_true_iff _ _).mp (List.mem_filter.mp (hperm_ms.mem_iff.mp hb)).2
    obtain ⟨ra, hra⟩ := lastIndexOf_isSome_of_mem sel a.id hasel
    obtain ⟨rb, hrb⟩ := lastIndexOf_isSome_of_mem sel b.id hbsel
    have hle' : ra ≤ rb := by
      rw [hra, hrb] at hle
      simpa [rankLE] using hle
    have hne' : ra ≠ rb := by
      intro he
      apply hne
      have h1 := lastIndexOf_getElem? sel a.id ra hra
      have h2 := lastIndexOf_getElem? sel b.id rb hrb
      rw [he] at h1
      rw [h1] at h2
      injection h2
    rw [hra, hrb]
    simp only [Option.getD_some]
    omega
  have hsorted_key_ms : ((((items.filter (fun it => sel.contains it.id)).mergeSort
      (fun a b => rankLE (lastIndexOf sel a.id) (lastIndexOf sel b.id))).map
        (fun x => (lastIndexOf sel x.id).getD 0)).Sorted (· < ·)) :=
    List.pairwise_map.mpr hpw_lt
  have hfm_keys := map_key_filterMap (fun sid => items.find? (fun it => it.id = sid))
    (fun s => (lastIndexOf sel s).getD 0) hg sel
  have hpw_filter : List.Pairwise
      (fun s t => (lastIndexOf sel s).getD 0 < (lastIndexOf sel t).getD 0)
      (sel.filter (fun sid => (items.find? (fun it => it.id = sid)).isSome)) :=
    List.Pairwise.sublist (List.filter_sublist sel) (pairwise_rank_lt sel hsel)
  have hsorted_key_fm : (((sel.filterMap
      (fun sid => items.find? (fun it => it.id = sid))).map
        (fun x => (lastIndexOf sel x.id).getD 0)).Sorted (· < ·)) := by
    rw [hfm_keys]
    exact List.pairwise_map.mpr hpw_filter
  simp only [separateItems]
  exact eq_of_perm_of_key_sorted (fun x => (lastIndexOf sel x.id).getD 0) _ _
    (hperm_ms.trans hperm) hsorted_key_ms hsorted_key_fm

/-! ## Helper lemmas: the fuzzy pass only permutes a sub-filter of its input -/

theorem filterMap_scored_map_item (score : List Char → List Char → Option Int)
    (l : List Item) (getText : Item → List Char) (q : List Char) :
    ((l.filterMap (fun it => (score (getText it) q).map
        (fun s => (⟨it, s⟩ : FuzzyCandidate)))).map (fun c => c.item))
      = l.filter (fun it => (score (getText it) q).isSome) := by
  induction l with
  | nil => rfl
  | cons it l ih =>
    cases hs : score (getText it) q with
    | none =>
      rw [List.filterMap_cons_none (by rw [hs]; rfl),
        List.filter_cons_of_neg (by simp [hs])]
      exact ih
    | some s =>
      rw [List.filterMap_cons_some (by rw [hs]; rfl),
        List.filter_cons_of_pos (by simp [hs]), List.map_cons, ih]

theorem fuzzyFilterWith_items_perm (score : List Char → List Char → Option Int)
    (l : List Item) (getText : Item → List Char) (q : List Char) :
    ((fuzzyFilterWith score l getText q).map (fun c => c.item)).Perm
      (l.filter (fun it => (score (getText it) q).isSome)) := by
  rw [← filterMap_scored_map_item score l getText q]
  exact (List.mergeSort_perm _ _).map _

theorem fuzzyFilterWith_item_mem (score : List Char → List Char → Option Int)
    (l : List Item) (getText : Item → List Char) (q : List Char) (x : Item)
    (hx : x ∈ (fuzzyFilterWith score l getText q).map (fun c => c.item)) :
    x ∈ l := by
  have := (fuzzyFilterWith_items_perm score l getText q).mem_iff.mp hx
  exact (List.mem_filter.mp this).1

/-! ## Claim C1: selected items form the MRU prefix of every ordered view -/

/-- C1.  For items with pairwise-distinct ids and a duplicate-free
selected-id list, the view produced by `orderItemsSync` for ANY query —
and likewise by `orderItemsAsync` — is the items whose id occurs in
`selectedIds`, in exactly `selectedIds` (MRU) order, as a contiguous
prefix, followed only by items whose id is not selected; the prefix does
not depend on the query (selected items are never filtered out), and no
id appears twice in the view. -/
theorem ordered_view_mru_front (items : List Item) (sel : List String)
    (query : List Char)
    (hids : (items.map Item.id).Nodup) (hsel : sel.Nodup) :
    (∃ rest,
      orderItemsSync items sel query
        = sel.filterMap (fun sid => items.find? (fun it => it.id = sid)) ++ rest ∧
      ∀ it ∈ rest, it.id ∉ sel) ∧
    orderItemsAsync items sel
      = sel.filterMap (fun sid => items.find? (fun it => it.id = sid))
        ++ items.filter (fun it => !sel.contains it.id) ∧
    ((orderItemsSync items sel query).map Item.id).Nodup := by
  have hsep1 := sortedSelected_eq_filterMap items sel hids hsel
  have hsep2 : (separateItems items sel).2
      = items.filter (fun it => !sel.contains it.id) := rfl
  have hg : ∀ sid x, (fun sid => items.find? (fun it => it.id = sid)) sid = some x
      → x.id = sid := fun sid x hx => by simpa using List.find?_some hx
  have hFM_ids := map_id_filterMap (fun sid => items.find? (fun it => it.id = sid)) hg sel
  have hFM_ids_nd : ((sel.filterMap
      (fun sid => items.find? (fun it => it.id = sid))).map Item.id).Nodup := by
    rw [hFM_ids]
    exact List.Nodup.filter _ hsel
  have hFM_ids_sub : ∀ a ∈ (sel.filterMap
      (fun sid => items.find? (fun it => it.id = sid))).map Item.id, a ∈ sel := by
    rw [hFM_ids]
    intro a ha
    exact (List.mem_filter.mp ha).1
  have nodup_out : ∀ rest : List Item, (∀ it ∈ rest, it.id ∉ sel) →
      (rest.map Item.id).Nodup →
      (((sel.filterMap (fun sid => items.find? (fun it => it.id = sid)) ++ rest)).map
        Item.id).Nodup := by
    intro rest hnotin hrestnd
    rw [List.map_append, List.nodup_append]
    refine ⟨hFM_ids_nd, hrestnd, ?_⟩
    intro a ha hb
    obtain ⟨it, hit, rfl⟩ := List.mem_map.mp hb
    exact hnotin it hit (hFM_ids_sub _ ha)
  have hunsel_notin : ∀ it ∈ items.filter (fun it => !sel.contains it.id),
      it.id ∉ sel := by
    intro it hit
    have h2 := (List.mem_filter.mp hit).2
    exact (contains_false_iff _ _).mp (by simpa using h2)
  have hunsel_ids_nd : ((items.filter (fun it => !sel.contains it.id)).map
      Item.id).Nodup :=
    List.Nodup.sublist ((List.filter_sublist items).map _) hids
  by_cases hq : query = []
  · subst hq
    have hsync : orderItemsSync items sel []
        = sel.filterMap (fun sid => items.find? (fun it => it.id = sid))
          ++ items.filter (fun it => !sel.contains it.id) := by
      show (separateItems items sel).1 ++ (separateItems items sel).2 = _
      rw [hsep1, hsep2]
    refine ⟨⟨items.filter (fun it => !sel.contains it.id), hsync, hunsel_notin⟩,
      ?_, ?_⟩
    · show (separateItems items sel).1 ++ (separateItems items sel).2 = _
      rw [hsep1, hsep2]
    · rw [hsync]
      exact nodup_out _ hunsel_notin hunsel_ids_nd
  · have hsync : orderItemsSync items sel query
        = sel.filterMap (fun sid => items.find? (fun it => it.id = sid))
          ++ (fuzzyFilterWith fuzzyScore
              (items.filter (fun it => !sel.contains it.id))
              (fun i => i.label) query).map (fun s => s.item) := by
      simp only [orderItemsSync, orderItemsSyncWith, if_neg hq]
      rw [hsep1, hsep2]
    have hrest_notin : ∀ it ∈ (fuzzyFilterWith fuzzyScore
        (items.filter (fun it => !sel.contains it.id))
        (fun i => i.label) query).map (fun s => s.item), it.id ∉ sel := by
      intro it hit
      exact hunsel_notin it (fuzzyFilterWith_item_mem _ _ _ _ _ hit)
    have hrest_ids_nd : (((fuzzyFilterWith fuzzyScore
        (items.filter (fun it => !sel.contains it.id))
        (fun i => i.label) query).map (fun s => s.item)).map Item.id).Nodup := by
      have hperm := (fuzzyFilterWith_items_perm fuzzyScore
        (items.filter (fun it => !sel.contains it.id)) (fun i => i.label) query).map
        Item.id
      refine hperm.nodup_iff.mpr ?_
      refine List.Nodup.sublist ?_ hids
      exact ((List.filter_sublist _).trans (List.filter_sublist items)).map _
    refine ⟨⟨_, hsync, hrest_notin⟩, ?_, ?_⟩
    · show (separateItems items sel).1 ++ (separateItems items sel).2 = _
      rw [hsep1, hsep2]
    · rw [hsync]
      exact nodup_out _ hrest_notin hrest_ids_nd

/-- Witness for C1 on the spec's end-to-end scenario A. -/
theorem ordered_view_mru_front_witness :
    (([⟨"1", ['A'], none⟩, ⟨"2", ['B'], none⟩, ⟨"3", ['G'], none⟩,
        ⟨"4", ['D'], none⟩] : List Item).map Item.id).Nodup ∧
    (["2", "4"] : List String).Nodup ∧
    orderItemsAsync
        [⟨"1", ['A'], none⟩, ⟨"2", ['B'], none⟩, ⟨"3", ['G'], none⟩, ⟨"4", ['D'], none⟩]
        ["2", "4"]
      = (["2", "4"].filterMap (fun sid =>
          ([⟨"1", ['A'], none⟩, ⟨"2", ['B'], none⟩, ⟨"3", ['G'], none⟩,
            ⟨"4", ['D'], none⟩] : List Item).find? (fun it => it.id = sid)))
        ++ ([⟨"1", ['A'], none⟩, ⟨"2", ['B'], none⟩, ⟨"3", ['G'], none⟩,
            ⟨"4", ['D'], none⟩] : List Item).filter
          (fun it => !(["2", "4"] : List String).contains it.id) :=
  ⟨by decide, by decide,
    (ordered_view_mru_front
      [⟨"1", ['A'], none⟩, ⟨"2", ['B'], none⟩, ⟨"3", ['G'], none⟩, ⟨"4", ['D'], none⟩]
      ["2", "4"] [] (by decide) (by decide)).2.1⟩

/-! ## Claim C4: empty query returns the plain partition, no fuzzy pass -/

/-- C4.  With an empty (or absent) query, the ordered view is exactly
the MRU-sorted selected partition followed by the unselected partition
in unchanged input order; the result does not depend on the scorer at
all (the fuzzy pass is never consulted — the same output arises for
every scoring function), its length equals the input length, and its
ids all come from the input. -/
theorem empty_query_order (items : List Item) (sel : List String)
    (hids : (items.map Item.id).Nodup) (hsel : sel.Nodup) :
    (∀ score, orderItemsSyncWith score items sel []
      = sel.filterMap (fun sid => items.find? (fun it => it.id = sid))
        ++ items.filter (fun it => !sel.contains it.id)) ∧
    (orderItemsSync items sel []).length = items.length ∧
    (∀ it ∈ orderItemsSync items sel [], it.id ∈ items.map Item.id) := by
  have hsep1 := sortedSelected_eq_filterMap items sel hids hsel
  have hsep2 : (separateItems items sel).2
      = items.filter (fun it => !sel.contains it.id) := rfl
  refine ⟨?_, ?_, ?_⟩
  · intro score
    show (separateItems items sel).1 ++ (separateItems items sel).2 = _
    rw [hsep1, hsep2]
  · show ((separateItems items sel).1 ++ (separateItems items sel).2).length = _
    rw [List.length_append]
    have h1 : (separateItems items sel).1.length
        = (items.filter (fun it => sel.contains it.id)).length :=
      (List.mergeSort_perm _ _).length_eq
    rw [h1, hsep2]
    have h2 := (List.filter_append_perm (fun it => sel.contains it.id) items).length_eq
    rw [List.length_append] at h2
    exact h2
  · intro it hit
    have hmem : it ∈ (separateItems items sel).1 ++ (separateItems items sel).2 := hit
    rcases List.mem_append.mp hmem with h1 | h2
    · have := (List.mergeSort_perm
        (items.filter (fun it => sel.contains it.id)) _).mem_iff.mp h1
      exact List.mem_map_of_mem Item.id (List.mem_filter.mp this).1
    · exact List.mem_map_of_mem Item.id (List.mem_filter.mp h2).1

/-- The four demo items of the spec's end-to-end scenarios. -/
def demoItems : List Item :=
  [⟨"1", ['A'], none⟩, ⟨"2", ['B'], none⟩, ⟨"3", ['G'], none⟩, ⟨"4", ['D'], none⟩]

/-- Witness for C4 at scenario A's inputs, including scorer-independence
at a scorer that matches nothing. -/
theorem empty_query_order_witness :
    ((demoItems.map Item.id).Nodup ∧ (["2", "4"] : List String).Nodup) ∧
    (orderItemsSync demoItems ["2", "4"] []).length = demoItems.length ∧
    orderItemsSyncWith (fun _ _ => none) demoItems ["2", "4"] []
      = orderItemsSyncWith fuzzyScore demoItems ["2", "4"] [] := by
  refine ⟨⟨by decide, by decide⟩,
    (empty_query_order demoItems ["2", "4"] (by decide) (by decide)).2.1, ?_⟩
  rw [(empty_query_order demoItems ["2", "4"] (by decide) (by decide)).1
    (fun _ _ => none)]
  rw [(empty_query_order demoItems ["2", "4"] (by decide) (by decide)).1 fuzzyScore]
